import Mathlib

/-!
Verification of the transaction-construction engine of electrum-mona
(`electrum_mona/wallet.py`) against its natural-language specification.

The Python source is shallowly embedded: satoshi amounts are `Int`, fee
rates are `ℚ`, transaction sizes are abstracted as a wallet-supplied
function of the input and output lists (the concrete vbyte formula never
matters for the properties below, and the locktime field has constant
serialized size), and external collaborators (address synchronizer
history, tx confirmations, the network, randomness) are fields of the
wallet state.  Python exceptions become `Except`/`Option` results.
-/

namespace ElectrumMona

/-- Reference to a previous transaction output (`TxOutpoint`). -/
structure TxOutpoint where
  txid : String
  vout : Nat
deriving DecidableEq

/-- Serialized form `txid:vout` used as key of the frozen-coin set
(`TxOutpoint.to_str`). -/
def TxOutpoint.to_str (p : TxOutpoint) : String :=
  p.txid ++ ":" ++ toString p.vout

/-- Transaction input (`PartialTxInput`): previous outpoint, trusted value,
resolved address, sequence number and signing metadata.  `pubkey` is the
single public key attached to sweep inputs; `signed` records whether a
signature for it is present. -/
structure PartialTxInput where
  prevout : TxOutpoint
  value_sats : Int
  address : String
  nsequence : Nat
  pubkey : String
  signed : Bool
  already_has_some_signatures : Bool
  block_height : Int
  is_coinbase : Bool
deriving DecidableEq

/-- Transaction output (`PartialTxOutput`) of a built transaction; the
address stands for the output script. -/
structure PartialTxOutput where
  address : String
  value : Int
deriving DecidableEq

/-- Requested output value for `make_unsigned_transaction`: either a
satoshi amount or the "entire remaining balance" sentinel `'!'`. -/
inductive ReqVal where
  | sats (v : Int)
  | spendMax
deriving DecidableEq

/-- Requested output of `make_unsigned_transaction` (in the source the
same `PartialTxOutput` class whose `value` may be the string `'!'`). -/
structure ReqOutput where
  address : String
  value : ReqVal
deriving DecidableEq

/-- Numeric reading of a requested value.  The `'!'` sentinel is replaced
by an explicit amount before any arithmetic in every modelled code path,
so the `0` default is never reached with `spendMax`. -/
def ReqVal.toInt : ReqVal → Int
  | .sats v => v
  | .spendMax => 0

/-- Conversion of a requested output into a concrete output. -/
def ReqOutput.toOut (o : ReqOutput) : PartialTxOutput :=
  ⟨o.address, o.value.toInt⟩

/-- Unsigned/partial transaction (`PartialTransaction`).  `txid` is the
identifier the source computes by hashing the serialization; the hash
itself is irrelevant here, so it is carried as data. -/
structure PartialTransaction where
  txid : String
  inputs : List PartialTxInput
  outputs : List PartialTxOutput
  locktime : Nat
  version : Nat
deriving DecidableEq

/-- Total value consumed by a list of inputs. -/
def inputTotal (ins : List PartialTxInput) : Int :=
  (ins.map (·.value_sats)).sum

/-- Total value of a list of outputs. -/
def outputTotal (outs : List PartialTxOutput) : Int :=
  (outs.map (·.value)).sum

/-- Miner fee of a transaction (`PartialTransaction.get_fee`): input value
minus output value. -/
def PartialTransaction.get_fee (tx : PartialTransaction) : Int :=
  inputTotal tx.inputs - outputTotal tx.outputs

/-- Modelled from the spec: `Transaction.is_final` lives in the missing
`transaction.py`; per the spec a transaction is RBF-replaceable
("not final") iff at least one input's sequence number signals
replaceability, i.e. is below `0xffffffff - 1`. -/
def PartialTransaction.is_final (tx : PartialTransaction) : Bool :=
  !(tx.inputs.any (fun i => i.nsequence < 0xfffffffe))

/-- Modelled from the spec: `PartialTransaction.set_rbf` lives in the
missing `transaction.py`; it records the replace-by-fee opt-in by setting
every input's sequence number to `0xfffffffd` (opt-in) or `0xfffffffe`
(final). -/
def PartialTransaction.set_rbf (tx : PartialTransaction) (rbf : Bool) : PartialTransaction :=
  { tx with inputs := tx.inputs.map fun i =>
      { i with nsequence := if rbf then 0xfffffffd else 0xfffffffe } }

/-- Height marker of transactions only known locally
(`TX_HEIGHT_LOCAL` in `address_synchronizer.py`). -/
def TX_HEIGHT_LOCAL : Int := -2

/-- Wallet state.  Pure data of this wallet (address lists, frozen sets,
UTXO set, configuration) together with the out-of-scope collaborators the
spec lists in section 6, abstracted as functions: on-chain history per
address, confirmation count per transaction, known fees of wallet
transactions, the fee/size oracles and the randomness and locktime
oracles. -/
structure Wallet where
  is_mine_addr : String → Bool
  is_change_addr : String → Bool
  frozen_addresses : List String
  frozen_coins : List String
  utxo_set : List PartialTxInput
  addr_history : String → List (String × Int)
  tx_conf : String → Nat
  skipmerklecheck : Bool
  local_height : Int
  confirmed_only : Bool
  tx_fees : String → Option Int
  estimated_size : List PartialTxInput → List PartialTxOutput → Nat
  dust : Int
  fee_per_kb : Option ℚ
  config_fee_estimator : Nat → Int
  new_locktime : Nat
  receiving_addresses : List String
  change_addresses : List String
  gap_limit : Nat
  gap_limit_for_change : Nat
  use_change : Bool
  multiple_change : Bool
  pick_random : List String → Option String
  addr_utxo : String → TxOutpoint → Option PartialTxInput
  is_used_addr : String → Bool
  in_use_by_request : List String
  batch_rbf : Bool
  base_tx_for_batching : Option PartialTransaction
  base_tx_is_local : Bool
  relayfee : ℚ

/-- Neutral wallet used as the base of concrete instances. -/
def baseWallet : Wallet where
  is_mine_addr := fun _ => false
  is_change_addr := fun _ => false
  frozen_addresses := []
  frozen_coins := []
  utxo_set := []
  addr_history := fun _ => []
  tx_conf := fun _ => 0
  skipmerklecheck := false
  local_height := 0
  confirmed_only := false
  tx_fees := fun _ => none
  estimated_size := fun _ _ => 100
  dust := 546
  fee_per_kb := none
  config_fee_estimator := fun _ => 0
  new_locktime := 0
  receiving_addresses := []
  change_addresses := []
  gap_limit := 20
  gap_limit_for_change := 6
  use_change := true
  multiple_change := false
  pick_random := fun l => l.head?
  addr_utxo := fun _ _ => none
  is_used_addr := fun _ => false
  in_use_by_request := []
  batch_rbf := false
  base_tx_for_batching := none
  base_tx_is_local := false
  relayfee := 1

/-! ## Gap-limit synchronizer (`Deterministic_Wallet`) -/

/-- Whether an address has deeply-confirmed history
(`Abstract_Wallet.address_is_old`, default `req_conf = 3`): the maximum
confirmation age over the address's history entries, starting from `-1`,
reaches `req_conf`.  Without the SPV check (`skipmerklecheck`) the age is
computed from the recorded block height instead. -/
def address_is_old (w : Wallet) (req_conf : Int) (addr : String) : Bool :=
  let ages := (w.addr_history addr).map (fun p =>
    if !w.skipmerklecheck then ((w.tx_conf p.1 : Int))
    else if p.2 ≤ 0 then 0 else w.local_height - p.2 + 1)
  decide (req_conf ≤ ages.foldl max (-1))

/-- The last `limit` elements of an address list (`slice_start=-limit`). -/
def lastAddrs (limit : Nat) (addrs : List String) : List String :=
  addrs.drop (addrs.length - limit)

/-- One branch of `Deterministic_Wallet.synchronize_sequence`: while fewer
than `limit` addresses exist, derive and append one; then, while any of
the last `limit` addresses is old, derive and append one more.  The loop
only terminates when the external history runs out of old addresses, so
it is given explicit fuel; `none` means the fuel was exhausted. -/
def synchronize_sequence (w : Wallet) (derive : Nat → String) (limit : Nat) :
    Nat → List String → Option (List String)
  | 0, _ => none
  | fuel + 1, addrs =>
    if addrs.length < limit then
      synchronize_sequence w derive limit fuel (addrs ++ [derive addrs.length])
    else if (lastAddrs limit addrs).any (address_is_old w 3) then
      synchronize_sequence w derive limit fuel (addrs ++ [derive addrs.length])
    else
      some addrs

/-- `Deterministic_Wallet.synchronize`: run the receiving branch with
`gap_limit`, then the change branch with `gap_limit_for_change`;
returns the two grown address lists. -/
def synchronize (w : Wallet) (deriveRecv deriveChange : Nat → String) (fuel : Nat) :
    Option (List String × List String) :=
  match synchronize_sequence w deriveRecv w.gap_limit fuel w.receiving_addresses with
  | none => none
  | some r =>
    match synchronize_sequence w deriveChange w.gap_limit_for_change fuel w.change_addresses with
    | none => none
    | some c => some (r, c)

theorem synchronize_sequence_invariant (w : Wallet) (derive : Nat → String) (limit : Nat) :
    ∀ (fuel : Nat) (addrs res : List String),
      synchronize_sequence w derive limit fuel addrs = some res →
      limit ≤ res.length ∧ ∀ a ∈ lastAddrs limit res, address_is_old w 3 a = false := by
  intro fuel
  induction fuel with
  | zero => intro addrs res h; simp [synchronize_sequence] at h
  | succ n ih =>
    intro addrs res h
    rw [synchronize_sequence] at h
    by_cases h1 : addrs.length < limit
    · rw [if_pos h1] at h
      exact ih _ _ h
    · rw [if_neg h1] at h
      by_cases h2 : (lastAddrs limit addrs).any (address_is_old w 3) = true
      · rw [if_pos h2] at h
        exact ih _ _ h
      · rw [if_neg h2] at h
        cases h
        refine ⟨Nat.le_of_not_lt h1, ?_⟩
        intro a ha
        by_contra hold
        exact h2 (List.any_eq_true.mpr ⟨a, ha, by simpa using hold⟩)

/-- Claim C2 (amended): for every deterministic wallet and every branch,
when `synchronize()` terminates, the branch holds at least `gap_limit`
(`gap_limit_for_change` for change) addresses and none of the last
`gap_limit` addresses of the branch is old, i.e. none has
deeply-confirmed (≥ 3 confirmations) on-chain history.  The claim's
stronger reading "unused = no on-chain history at all" is refuted by
`spec_c2_counterexample`. -/
theorem spec_c2 (w : Wallet) (dR dC : Nat → String) (fuel : Nat)
    (r c : List String)
    (h : synchronize w dR dC fuel = some (r, c)) :
    (w.gap_limit ≤ r.length ∧
      ∀ a ∈ lastAddrs w.gap_limit r, address_is_old w 3 a = false) ∧
    (w.gap_limit_for_change ≤ c.length ∧
      ∀ a ∈ lastAddrs w.gap_limit_for_change c, address_is_old w 3 a = false) := by
  unfold synchronize at h
  cases hr : synchronize_sequence w dR w.gap_limit fuel w.receiving_addresses with
  | none => rw [hr] at h; exact absurd h (by simp)
  | some r' =>
    rw [hr] at h
    cases hc : synchronize_sequence w dC w.gap_limit_for_change fuel w.change_addresses with
    | none => rw [hc] at h; exact absurd h (by simp)
    | some c' =>
      rw [hc] at h
      simp only [Option.some.injEq, Prod.mk.injEq] at h
      obtain ⟨h1, h2⟩ := h
      subst h1; subst h2
      exact ⟨synchronize_sequence_invariant w dR w.gap_limit fuel _ _ hr,
             synchronize_sequence_invariant w dC w.gap_limit_for_change fuel _ _ hc⟩

/-- Concrete wallet refuting the strong reading of C2: the single derived
address `a0` has an on-chain history entry whose transaction has 0
confirmations, so it is not `address_is_old` and synchronization stops. -/
def gapWallet : Wallet :=
  { baseWallet with
    gap_limit := 1
    gap_limit_for_change := 1
    addr_history := fun a => if a = "a0" then [("t1", 0)] else []
    tx_conf := fun _ => 0 }

/-- Derivation map of the counterexample wallet. -/
def gapDerive : Nat → String := fun n => "a" ++ toString n

theorem spec_c2_witness :
    (gapWallet.gap_limit ≤ (["a0"] : List String).length ∧
      ∀ a ∈ lastAddrs gapWallet.gap_limit ["a0"], address_is_old gapWallet 3 a = false) ∧
    (gapWallet.gap_limit_for_change ≤ (["a0"] : List String).length ∧
      ∀ a ∈ lastAddrs gapWallet.gap_limit_for_change ["a0"],
        address_is_old gapWallet 3 a = false) :=
  spec_c2 gapWallet gapDerive gapDerive 5 ["a0"] ["a0"] (by decide)

/-- Counterexample to claim C2 as stated: after `synchronize()` the last
`gap_limit` addresses need not be free of on-chain history — in
`gapWallet` synchronization returns with `a0` as the last receiving
address although `a0` has a (shallowly confirmed) history entry.  The
code only guarantees the absence of deeply-confirmed history. -/
theorem spec_c2_counterexample :
    synchronize gapWallet gapDerive gapDerive 5 = some (["a0"], ["a0"]) ∧
    ∃ a ∈ lastAddrs gapWallet.gap_limit ["a0"], gapWallet.addr_history a ≠ [] := by
  refine ⟨by decide, "a0", ?_, by decide⟩
  decide

/-! ## Coins, frozen sets and spendable-coin selection -/

/-- Whether a single coin is frozen (`Abstract_Wallet.is_frozen_coin`):
its serialized outpoint is in the frozen-coin set. -/
def is_frozen_coin (w : Wallet) (u : PartialTxInput) : Bool :=
  w.frozen_coins.contains u.prevout.to_str

/-- Whether an address is frozen (`Abstract_Wallet.is_frozen_address`). -/
def is_frozen_address (w : Wallet) (addr : String) : Bool :=
  w.frozen_addresses.contains addr

/-- Modelled from the spec: `AddressSynchronizer.get_utxos` is in the
missing `address_synchronizer.py`; per the spec it returns the wallet's
UTXOs restricted to the requested domain, with the excluded addresses
removed and immature coinbase / unconfirmed / local coins filtered out
when the corresponding flags are set. -/
def get_utxos (w : Wallet) (domain : Option (List String)) (excluded : List String)
    (mature_only confirmed_only nonlocal_only : Bool) : List PartialTxInput :=
  w.utxo_set.filter fun c =>
    (match domain with | some d => d.contains c.address | none => true)
    && !excluded.contains c.address
    && (!mature_only || !c.is_coinbase || decide (c.block_height + 100 ≤ w.local_height + 1))
    && (!confirmed_only || decide (0 < c.block_height))
    && (!nonlocal_only || decide (c.block_height ≠ TX_HEIGHT_LOCAL))

/-- `Abstract_Wallet.get_spendable_coins`: mature UTXOs of the domain with
frozen addresses excluded, then individually frozen coins removed. -/
def get_spendable_coins (w : Wallet) (domain : Option (List String))
    (nonlocal_only : Bool) : List PartialTxInput :=
  (get_utxos w domain w.frozen_addresses true w.confirmed_only nonlocal_only).filter
    fun u => !is_frozen_coin w u

/-- Modelled from the spec: the balance is derived from the full UTXO set
reported by the address synchronizer; the frozen sets are not consulted. -/
def get_balance (w : Wallet) : Int :=
  inputTotal w.utxo_set

/-- `Abstract_Wallet.set_frozen_state_of_addresses`: only applies (and
reports success) when every address is mine; pure selection-time state. -/
def set_frozen_state_of_addresses (w : Wallet) (addrs : List String) (freeze : Bool) :
    Wallet × Bool :=
  if addrs.all w.is_mine_addr then
    ({ w with frozen_addresses :=
        if freeze then w.frozen_addresses ++ addrs.filter (fun a => !w.frozen_addresses.contains a)
        else w.frozen_addresses.filter (fun a => !addrs.contains a) }, true)
  else (w, false)

/-- `Abstract_Wallet.set_frozen_state_of_coins`: records the serialized
outpoints of the given UTXOs in the frozen-coin set. -/
def set_frozen_state_of_coins (w : Wallet) (utxos : List PartialTxInput) (freeze : Bool) :
    Wallet :=
  let keys := utxos.map (·.prevout.to_str)
  { w with frozen_coins :=
      if freeze then w.frozen_coins ++ keys.filter (fun k => !w.frozen_coins.contains k)
      else w.frozen_coins.filter (fun k => !keys.contains k) }

/-- Claim C9: no coin returned by `get_spendable_coins` has a frozen
address or a frozen outpoint, and freezing is purely a selection-time
filter: it leaves the UTXO set (hence every coin value) and the balance
derived from the full UTXO set unchanged. -/
theorem spec_c9 (w : Wallet) (domain : Option (List String)) (nonlocal_only : Bool)
    (addrs : List String) (utxos : List PartialTxInput) (freeze : Bool) :
    (∀ c ∈ get_spendable_coins w domain nonlocal_only,
        is_frozen_address w c.address = false ∧ is_frozen_coin w c = false) ∧
    ((set_frozen_state_of_addresses w addrs freeze).1.utxo_set = w.utxo_set ∧
      get_balance (set_frozen_state_of_addresses w addrs freeze).1 = get_balance w) ∧
    ((set_frozen_state_of_coins w utxos freeze).utxo_set = w.utxo_set ∧
      get_balance (set_frozen_state_of_coins w utxos freeze) = get_balance w) := by
  refine ⟨?_, ?_, ?_⟩
  · intro c hc
    unfold get_spendable_coins at hc
    have h2 := List.of_mem_filter hc
    have h1 := List.mem_of_mem_filter hc
    unfold get_utxos at h1
    have h3 := List.of_mem_filter h1
    constructor
    · simp only [Bool.and_eq_true, Bool.not_eq_true', decide_eq_true_eq] at h3
      exact h3.1.1.1.2
    · simpa using h2
  · unfold set_frozen_state_of_addresses
    by_cases h : addrs.all w.is_mine_addr = true
    · rw [if_pos h]; exact ⟨rfl, rfl⟩
    · rw [if_neg h]; exact ⟨rfl, rfl⟩
  · unfold set_frozen_state_of_coins
    exact ⟨rfl, rfl⟩

/-- Concrete wallet exercising C9: one spendable coin, one coin frozen by
address, one frozen by outpoint. -/
def frozenWallet : Wallet :=
  { baseWallet with
    is_mine_addr := fun a => a = "m1" || a = "m2" || a = "m3"
    frozen_addresses := ["m2"]
    frozen_coins := ["t2:0"]
    utxo_set :=
      [⟨⟨"t1", 0⟩, 50000, "m1", 0xffffffff, "", false, false, 5, false⟩,
       ⟨⟨"t2", 0⟩, 60000, "m3", 0xffffffff, "", false, false, 5, false⟩,
       ⟨⟨"t3", 1⟩, 70000, "m2", 0xffffffff, "", false, false, 5, false⟩] }

theorem spec_c9_witness :
    (∀ c ∈ get_spendable_coins frozenWallet none false,
        is_frozen_address frozenWallet c.address = false ∧
        is_frozen_coin frozenWallet c = false) ∧
    ((set_frozen_state_of_addresses frozenWallet ["m1"] true).1.utxo_set =
        frozenWallet.utxo_set ∧
      get_balance (set_frozen_state_of_addresses frozenWallet ["m1"] true).1 =
        get_balance frozenWallet) ∧
    ((set_frozen_state_of_coins frozenWallet frozenWallet.utxo_set true).utxo_set =
        frozenWallet.utxo_set ∧
      get_balance (set_frozen_state_of_coins frozenWallet frozenWallet.utxo_set true) =
        get_balance frozenWallet) :=
  spec_c9 frozenWallet none false ["m1"] frozenWallet.utxo_set true

/-! ## Diagnostic query for addresses beyond the gap limit -/

/-- Whether the wallet database has any history for the address
(the truthiness test `self.db.get_addr_history(addr)`). -/
def hasHist (w : Wallet) (a : String) : Bool :=
  !(w.addr_history a).isEmpty

/-- Inner loop of `get_all_known_addresses_beyond_gap_limit`: walk the
branch keeping a rolling count of consecutive history-free addresses;
a history-free address preceded by at least `gap` of them is reported. -/
def process_addresses_go (h : String → Bool) (gap : Nat) :
    List String → Nat → List String → List String
  | [], _, acc => acc
  | a :: rest, rolling, acc =>
    if h a then process_addresses_go h gap rest 0 acc
    else process_addresses_go h gap rest (rolling + 1)
      (if gap ≤ rolling then acc ++ [a] else acc)

/-- `Deterministic_Wallet.get_all_known_addresses_beyond_gap_limit`:
both branches are scanned, the change branch with its own gap limit. -/
def get_all_known_addresses_beyond_gap_limit (w : Wallet) : List String :=
  process_addresses_go (hasHist w) w.gap_limit w.receiving_addresses 0 []
    ++ process_addresses_go (hasHist w) w.gap_limit_for_change w.change_addresses 0 []

/-- Rolling-count value the scan has reached after `k` addresses when it
started with count `rolling`. -/
def rollAt (h : String → Bool) : List String → Nat → Nat → Nat
  | _, rolling, 0 => rolling
  | [], rolling, _ + 1 => rolling
  | a :: rest, rolling, k + 1 => rollAt h rest (if h a then 0 else rolling + 1) k

theorem process_addresses_go_mem (h : String → Bool) (gap : Nat) :
    ∀ (addrs : List String) (rolling : Nat) (acc : List String) (a : String),
      a ∈ process_addresses_go h gap addrs rolling acc ↔
        a ∈ acc ∨ ∃ k, k < addrs.length ∧ addrs.getD k "" = a ∧
          h (addrs.getD k "") = false ∧ gap ≤ rollAt h addrs rolling k := by
  intro addrs
  induction addrs with
  | nil =>
    intro rolling acc a
    simp [process_addresses_go]
  | cons x rest ih =>
    intro rolling acc a
    rw [process_addresses_go]
    by_cases hx : h x = true
    · rw [if_pos hx, ih]
      constructor
      · rintro (hacc | ⟨k, hk, hka, hkh, hkr⟩)
        · exact Or.inl hacc
        · exact Or.inr ⟨k + 1, by simpa using hk, by simpa using hka,
            by simpa using hkh, by simpa [rollAt, hx] using hkr⟩
      · rintro (hacc | ⟨k, hk, hka, hkh, hkr⟩)
        · exact Or.inl hacc
        · match k with
          | 0 => rw [List.getD_cons_zero] at hkh; rw [hx] at hkh; cases hkh
          | k + 1 =>
            exact Or.inr ⟨k, by simpa using hk, by simpa using hka,
              by simpa using hkh, by simpa [rollAt, hx] using hkr⟩
    · rw [if_neg hx, ih]
      have hx' : h x = false := by simpa using hx
      constructor
      · rintro (hacc | ⟨k, hk, hka, hkh, hkr⟩)
        · by_cases hg : gap ≤ rolling
          · rw [if_pos hg] at hacc
            rcases List.mem_append.mp hacc with h1 | h1
            · exact Or.inl h1
            · refine Or.inr ⟨0, by simp, ?_, ?_, ?_⟩
              · rw [List.getD_cons_zero]; exact (List.mem_singleton.mp h1).symm
              · rw [List.getD_cons_zero]; exact hx'
              · simpa [rollAt] using hg
          · rw [if_neg hg] at hacc
            exact Or.inl hacc
        · exact Or.inr ⟨k + 1, by simpa using hk, by simpa using hka,
            by simpa using hkh, by simpa [rollAt, hx'] using hkr⟩
      · rintro (hacc | ⟨k, hk, hka, hkh, hkr⟩)
        · left
          by_cases hg : gap ≤ rolling
          · rw [if_pos hg]; exact List.mem_append_left _ hacc
          · rw [if_neg hg]; exact hacc
        · match k with
          | 0 =>
            simp only [List.getD_cons_zero] at hka hkh
            have hg : gap ≤ rolling := by simpa [rollAt] using hkr
            left
            rw [if_pos hg]
            exact List.mem_append_right _ (by simp [hka])
          | k + 1 =>
            exact Or.inr ⟨k, by simpa using hk, by simpa using hka,
              by simpa using hkh, by simpa [rollAt, hx'] using hkr⟩

theorem rollAt_succ (h : String → Bool) :
    ∀ (addrs : List String) (rolling k : Nat), k < addrs.length →
      rollAt h addrs rolling (k + 1) =
        if h (addrs.getD k "") then 0 else rollAt h addrs rolling k + 1 := by
  intro addrs
  induction addrs with
  | nil => intro rolling k hk; simp at hk
  | cons x rest ih =>
    intro rolling k hk
    match k with
    | 0 => simp [rollAt]
    | k + 1 =>
      have hk' : k < rest.length := by simpa using hk
      simp only [rollAt, List.getD_cons_succ]
      exact ih _ k hk'

theorem rollAt_window (h : String → Bool) :
    ∀ (k : Nat) (addrs : List String) (g : Nat), k ≤ addrs.length →
      (g ≤ rollAt h addrs 0 k ↔
        g ≤ k ∧ ∀ j, k - g ≤ j → j < k → h (addrs.getD j "") = false) := by
  intro k
  induction k with
  | zero =>
    intro addrs g _
    constructor
    · intro hg
      refine ⟨by simpa [rollAt] using hg, ?_⟩
      intro j _ hj; omega
    · rintro ⟨hg, _⟩; simpa [rollAt] using hg
  | succ k ih =>
    intro addrs g hk
    have hk1 : k < addrs.length := by omega
    rw [rollAt_succ h addrs 0 k hk1]
    by_cases hx : h (addrs.getD k "") = true
    · rw [if_pos hx]
      constructor
      · intro hg
        have hg0 : g = 0 := by omega
        subst hg0
        exact ⟨Nat.zero_le _, fun j h1 h2 => by omega⟩
      · rintro ⟨hg, hwin⟩
        match g with
        | 0 => exact Nat.zero_le _
        | g + 1 =>
          exfalso
          have := hwin k (by omega) (by omega)
          rw [hx] at this; cases this
    · rw [if_neg hx]
      have hx' : h (addrs.getD k "") = false := by simpa using hx
      match g with
      | 0 =>
        constructor
        · intro _; exact ⟨Nat.zero_le _, fun j h1 h2 => by omega⟩
        · intro _; exact Nat.zero_le _
      | g + 1 =>
        rw [Nat.succ_le_succ_iff, ih addrs g (by omega)]
        constructor
        · rintro ⟨hg, hwin⟩
          refine ⟨by omega, ?_⟩
          intro j h1 h2
          by_cases hj : j = k
          · subst hj; exact hx'
          · exact hwin j (by omega) (by omega)
        · rintro ⟨hg, hwin⟩
          refine ⟨by omega, ?_⟩
          intro j h1 h2
          exact hwin j (by omega) (by omega)

/-- Spec-level description of "beyond the gap limit" on one branch: the
address at position `k` is itself history-free and the `gap` addresses
immediately before it all exist and are history-free. -/
def beyondGap (h : String → Bool) (gap : Nat) (addrs : List String) (a : String) : Prop :=
  ∃ k, k < addrs.length ∧ addrs.getD k "" = a ∧ h (addrs.getD k "") = false ∧
    gap ≤ k ∧ ∀ j, k - gap ≤ j → j < k → h (addrs.getD j "") = false

theorem process_addresses_characterization (h : String → Bool) (gap : Nat)
    (addrs : List String) (a : String) :
    a ∈ process_addresses_go h gap addrs 0 [] ↔ beyondGap h gap addrs a := by
  rw [process_addresses_go_mem]
  simp only [List.not_mem_nil, false_or]
  unfold beyondGap
  constructor
  · rintro ⟨k, hk, hka, hkh, hkr⟩
    have := (rollAt_window h k addrs gap (Nat.le_of_lt hk)).mp hkr
    exact ⟨k, hk, hka, hkh, this.1, this.2⟩
  · rintro ⟨k, hk, hka, hkh, hkg, hwin⟩
    refine ⟨k, hk, hka, hkh, ?_⟩
    exact (rollAt_window h k addrs gap (Nat.le_of_lt hk)).mpr ⟨hkg, hwin⟩

/-- Claim C7 (amended): `get_all_known_addresses_beyond_gap_limit` returns
exactly those addresses of either branch that are themselves history-free
and are immediately preceded, within their branch, by at least `gap_limit`
(`gap_limit_for_change` on the change branch) consecutive history-free
addresses.  Contrary to the claim as stated, an address that itself has
history is never reported (see `spec_c7_counterexample`). -/
theorem spec_c7 (w : Wallet) (a : String) :
    a ∈ get_all_known_addresses_beyond_gap_limit w ↔
      beyondGap (hasHist w) w.gap_limit w.receiving_addresses a ∨
      beyondGap (hasHist w) w.gap_limit_for_change w.change_addresses a := by
  unfold get_all_known_addresses_beyond_gap_limit
  rw [List.mem_append, process_addresses_characterization,
    process_addresses_characterization]

/-- Wallet refuting the "whether itself used or unused" part of C7: with
`gap_limit = 2`, address `r2` has history and is preceded by the two
history-free addresses `r0`, `r1`. -/
def beyondWallet : Wallet :=
  { baseWallet with
    gap_limit := 2
    receiving_addresses := ["r0", "r1", "r2"]
    addr_history := fun a => if a = "r2" then [("t9", 3)] else [] }

/-- Counterexample to claim C7 as stated: `r2` is preceded by
`gap_limit = 2` consecutive unused addresses, yet — being itself used —
it is not in the returned set. -/
theorem spec_c7_counterexample :
    (2 ≤ (2 : Nat) ∧ ∀ j, 2 - 2 ≤ j → j < 2 →
      hasHist beyondWallet (beyondWallet.receiving_addresses.getD j "") = false) ∧
    "r2" ∉ get_all_known_addresses_beyond_gap_limit beyondWallet := by
  constructor
  · exact ⟨le_refl 2, by decide⟩
  · decide

/-! ## Coin chooser and unsigned-transaction assembly -/

/-- Modelled from the spec: the pluggable coin-selection strategy of the
missing `coinchooser.py`.  `select` returns the positions, within the
offered coin list, of the coins chosen as additional inputs, together with
the change outputs to attach; `none` stands for `NotEnoughFunds`.  Per
spec section 4.3 the strategy "chooses a subset of available_coins", which
the position-based interface enforces structurally. -/
structure CoinChooser where
  select : List PartialTxInput → List PartialTxInput → List PartialTxOutput →
    List String → (Nat → Int) → Int → Option (List Nat × List PartialTxOutput)

/-- Modelled from the spec: `CoinChooser.make_tx` assembles the base
inputs plus the selected coins, and the fixed outputs plus change. -/
def CoinChooser.make_tx (cc : CoinChooser) (coins inputs : List PartialTxInput)
    (outputs : List PartialTxOutput) (change_addrs : List String)
    (fee_estimator : Nat → Int) (dust : Int) : Option PartialTransaction :=
  match cc.select coins inputs outputs change_addrs fee_estimator dust with
  | none => none
  | some (picked, change) =>
    some ⟨"", inputs ++ picked.filterMap (fun i => coins[i]?), outputs ++ change, 0, 2⟩

theorem CoinChooser.make_tx_inputs (cc : CoinChooser)
    (coins inputs : List PartialTxInput) (outputs : List PartialTxOutput)
    (change_addrs : List String) (fee_estimator : Nat → Int) (dust : Int)
    (tx : PartialTransaction)
    (h : cc.make_tx coins inputs outputs change_addrs fee_estimator dust = some tx) :
    ∀ i ∈ tx.inputs, i ∈ inputs ∨ i ∈ coins := by
  unfold CoinChooser.make_tx at h
  cases hs : cc.select coins inputs outputs change_addrs fee_estimator dust with
  | none => rw [hs] at h; cases h
  | some pc =>
    rw [hs] at h
    cases h
    intro i hi
    rcases List.mem_append.mp hi with h1 | h1
    · exact Or.inl h1
    · obtain ⟨j, _, hj⟩ := List.mem_filterMap.mp h1
      rcases List.getElem?_eq_some.mp hj with ⟨hlt, heq⟩
      exact Or.inr (heq ▸ List.getElem_mem hlt)

/-- `Abstract_Wallet.calc_unused_change_addresses`: change addresses that
the synchronizer has not seen used. -/
def calc_unused_change_addresses (w : Wallet) : List String :=
  w.change_addresses.filter fun a => !w.is_used_addr a

/-- `Abstract_Wallet.get_change_addresses_for_new_transaction`: a
preferred address wins; otherwise all unused change addresses, falling
back to one picked (randomness abstracted by `pick_random`) among the
last `gap_limit_for_change`; truncated to `max_change_outputs` (3) when
`multiple_change` else 1. -/
def get_change_addresses_for_new_transaction (w : Wallet) (preferred : List String) :
    List String :=
  let change_addrs :=
    if preferred ≠ [] then preferred
    else if w.use_change then
      let addrs := calc_unused_change_addresses w
      if addrs ≠ [] then addrs
      else
        let last := lastAddrs w.gap_limit_for_change w.change_addresses
        match w.pick_random last with
        | some a => [a]
        | none => []
    else []
  change_addrs.take (if w.multiple_change then 3 else 1)

/-- Errors of `make_unsigned_transaction` (the input-signature check is a
bare `Exception` in the source). -/
inductive TxBuildErr where
  | hasSignatures
  | multipleSpendMax
  | noDynamicFeeEstimates
  | notEnoughFunds
deriving DecidableEq

/-- The `fee` argument of `make_unsigned_transaction`: absent (use the
config's dynamic estimator), a fixed amount, or a callback. -/
inductive FeeArg where
  | auto
  | fixed (n : Int)
  | estimator (f : Nat → Int)

/-- Resolution of the fee argument into a fee estimator over sizes. -/
def FeeArg.resolve (w : Wallet) : FeeArg → (Nat → Int)
  | .auto => w.config_fee_estimator
  | .fixed n => fun _ => n
  | .estimator f => f

/-- Scan of the requested outputs for the `'!'` sentinel
(`make_unsigned_transaction`, the `i_max` loop): remembers the first
sentinel index and fails with `MultipleSpendMaxTxOutputs` on a second. -/
def findSpendMaxAux : List ReqOutput → Nat → Option Nat →
    Except TxBuildErr (Option Nat)
  | [], _, acc => .ok acc
  | o :: rest, i, acc =>
    if o.value = .spendMax then
      match acc with
      | some _ => .error .multipleSpendMax
      | none => findSpendMaxAux rest (i + 1) (some i)
    else findSpendMaxAux rest (i + 1) acc

/-- Replacement of the value of the requested output at position `i`
(the source mutates `outputs[i_max].value`). -/
def setReqValue (outs : List ReqOutput) (i : Nat) (v : Int) : List ReqOutput :=
  match outs[i]? with
  | some o => outs.set i { o with value := .sats v }
  | none => outs

/-- The "spend max" branch of `make_unsigned_transaction`: all supplied
coins are spent; the sentinel output absorbs
`total input value - other outputs - fee(estimated size)`, and a negative
amount is `NotEnoughFunds`. -/
def spendMaxBranch (w : Wallet) (coins : List PartialTxInput)
    (outputs : List ReqOutput) (fee_estimator : Nat → Int) (i_max : Nat) :
    Except TxBuildErr PartialTransaction :=
  let sendable := inputTotal coins
  let outs0 := (setReqValue outputs i_max 0).map ReqOutput.toOut
  let fee := fee_estimator (w.estimated_size coins outs0)
  let amount := sendable - outputTotal outs0 - fee
  if amount < 0 then .error .notEnoughFunds
  else .ok ⟨"", coins, (setReqValue outputs i_max amount).map ReqOutput.toOut, 0, 2⟩

/-- The coin-chooser branch of `make_unsigned_transaction`, including the
batch-with-unconfirmed-transaction merge (`batch_rbf`): the base
transaction's inputs are pre-selected, its non-change outputs fixed, and
the fee estimator is floored by the replacement-fee lower bound. -/
def coinChooserBranch (w : Wallet) (cc : CoinChooser) (coins : List PartialTxInput)
    (outputs : List ReqOutput) (fee_estimator : Nat → Int) (change_addr : List String) :
    Except TxBuildErr PartialTransaction :=
  match (if w.batch_rbf then w.base_tx_for_batching else none) with
  | some base_tx =>
    let coins := coins.filter fun c => c.prevout.txid ≠ base_tx.txid
    let base_tx_fee := base_tx.get_fee
    let fe : Nat → Int := fun size =>
      let lower_bound : Int :=
        if w.base_tx_is_local then 0
        else base_tx_fee + round ((size : ℚ) * (w.relayfee / 1000))
      max lower_bound (fee_estimator size)
    let txi := base_tx.inputs
    let txo := base_tx.outputs.filter fun o => !w.is_change_addr o.address
    let old_change := (base_tx.outputs.filter fun o => w.is_change_addr o.address).map (·.address)
    let change_addrs := get_change_addresses_for_new_transaction w
      (if change_addr ≠ [] then change_addr else old_change)
    match cc.make_tx coins txi (outputs.map ReqOutput.toOut ++ txo) change_addrs fe w.dust with
    | none => .error .notEnoughFunds
    | some tx => .ok tx
  | none =>
    let change_addrs := get_change_addresses_for_new_transaction w change_addr
    match cc.make_tx coins [] (outputs.map ReqOutput.toOut) change_addrs fee_estimator w.dust with
    | none => .error .notEnoughFunds
    | some tx => .ok tx

/-- `Abstract_Wallet.make_unsigned_transaction`: reject pre-signed coins,
scan for the spend-max sentinel, require a fee source, then either let the
coin chooser pick inputs or spend everything, and timelock the result. -/
def make_unsigned_transaction (w : Wallet) (cc : CoinChooser)
    (coins : List PartialTxInput) (outputs : List ReqOutput) (fee : FeeArg)
    (change_addr : List String) : Except TxBuildErr PartialTransaction :=
  if coins.any (·.already_has_some_signatures) then .error .hasSignatures
  else
    match findSpendMaxAux outputs 0 none with
    | .error e => .error e
    | .ok i_max? =>
      if (match fee with | .auto => true | _ => false) && w.fee_per_kb = none then
        .error .noDynamicFeeEstimates
      else
        let fee_estimator := fee.resolve w
        let res := match i_max? with
          | none => coinChooserBranch w cc coins outputs fee_estimator change_addr
          | some i_max => spendMaxBranch w coins outputs fee_estimator i_max
        match res with
        | .error e => .error e
        | .ok tx => .ok { tx with locktime := w.new_locktime }

/-- Wallet signing (`Abstract_Wallet.sign_transaction`): attaches
signatures to the inputs this wallet can sign; it never touches sequence
numbers, outputs or values. -/
def sign_transaction (w : Wallet) (tx : PartialTransaction) : PartialTransaction :=
  { tx with inputs := tx.inputs.map fun i =>
      if w.is_mine_addr i.address then { i with signed := true } else i }

/-- `Abstract_Wallet.mktx`: build from the spendable coins, force the
replace-by-fee opt-in OFF (`tx.set_rbf(False)`, the `rbf` argument is
deliberately ignored in this fork), set the version, optionally sign. -/
def mktx (w : Wallet) (cc : CoinChooser) (outputs : List ReqOutput) (fee : FeeArg)
    (change_addr : List String) (domain : Option (List String)) (rbf : Bool)
    (nonlocal_only : Bool) (tx_version : Option Nat) (sign : Bool) :
    Except TxBuildErr PartialTransaction :=
  let coins := get_spendable_coins w domain nonlocal_only
  match make_unsigned_transaction w cc coins outputs fee change_addr with
  | .error e => .error e
  | .ok tx =>
    let tx := tx.set_rbf false
    let tx := match tx_version with | some v => { tx with version := v } | none => tx
    let tx := if sign then sign_transaction w tx else tx
    .ok tx

theorem findSpendMaxAux_single :
    ∀ (outs : List ReqOutput) (i k : Nat),
      (∀ j, j < outs.length → ((outs.getD j ⟨"", .sats 0⟩).value = .spendMax ↔ j = k)) →
      k < outs.length →
      findSpendMaxAux outs i none = .ok (some (i + k)) := by
  intro outs
  induction outs with
  | nil => intro i k _ hk; simp at hk
  | cons o rest ih =>
    intro i k hone hk
    rw [findSpendMaxAux]
    by_cases h0 : o.value = .spendMax
    · rw [if_pos h0]
      have hk0 : k = 0 := ((hone 0 (by simp)).mp (by simpa using h0)).symm
      subst hk0
      have hrest : ∀ j, j < rest.length →
          (rest.getD j ⟨"", .sats 0⟩).value ≠ .spendMax := by
        intro j hj hmax
        have := (hone (j + 1) (by simpa using hj)).mp (by simpa using hmax)
        omega
      have : ∀ (rest' : List ReqOutput) (i' : Nat),
          (∀ j, j < rest'.length → (rest'.getD j ⟨"", .sats 0⟩).value ≠ .spendMax) →
          findSpendMaxAux rest' i' (some i) = .ok (some i) := by
        intro rest'
        induction rest' with
        | nil => intro i' _; rfl
        | cons r rs ihr =>
          intro i' hno
          rw [findSpendMaxAux]
          have hr : ¬ r.value = .spendMax := by
            have := hno 0 (by simp); simpa using this
          rw [if_neg hr]
          exact ihr (i' + 1) (fun j hj => hno (j + 1) (by simpa using hj))
      simpa using this rest (i + 1) hrest
    · rw [if_neg h0]
      match k with
      | 0 =>
        exfalso
        exact h0 (by simpa using (hone 0 (by simp)).mpr rfl)
      | k + 1 =>
        have hone' : ∀ j, j < rest.length →
            ((rest.getD j ⟨"", .sats 0⟩).value = .spendMax ↔ j = k) := by
          intro j hj
          have := hone (j + 1) (by simpa using hj)
          simpa [Nat.succ_inj] using this
        have := ih (i + 1) k hone' (by simpa using hk)
        rw [this]
        simp only [Except.ok.injEq, Option.some.injEq]
        omega

/-- Claim C3: with exactly one "spend max" sentinel output at position
`i`, all supplied coins become inputs, the sentinel output's final value
is total input value minus the other outputs minus the estimated fee, and
a negative amount fails with `NotEnoughFunds`; two or more sentinel
outputs fail with `MultipleSpendMaxTxOutputs`. -/
theorem spec_c3 (w : Wallet) (cc : CoinChooser) (coins : List PartialTxInput)
    (outputs : List ReqOutput) (f : Int) (change_addr : List String)
    (hnosig : coins.all (fun c => !c.already_has_some_signatures)) :
    (∀ i, i < outputs.length →
      (∀ j, j < outputs.length →
        ((outputs.getD j ⟨"", .sats 0⟩).value = .spendMax ↔ j = i)) →
      (let outs0 := (setReqValue outputs i 0).map ReqOutput.toOut
       let amount := inputTotal coins - outputTotal outs0 -
         f
       (amount < 0 →
          make_unsigned_transaction w cc coins outputs (.fixed f) change_addr =
            .error .notEnoughFunds) ∧
       (0 ≤ amount →
          make_unsigned_transaction w cc coins outputs (.fixed f) change_addr =
            .ok ⟨"", coins, (setReqValue outputs i amount).map ReqOutput.toOut,
                  w.new_locktime, 2⟩))) ∧
    (∀ i j, i < j → j < outputs.length →
      (outputs.getD i ⟨"", .sats 0⟩).value = .spendMax →
      (outputs.getD j ⟨"", .sats 0⟩).value = .spendMax →
      make_unsigned_transaction w cc coins outputs (.fixed f) change_addr =
        .error .multipleSpendMax) := by
  have hsig : coins.any (·.already_has_some_signatures) = false := by
    rw [List.any_eq_false]
    intro c hc
    have := List.all_eq_true.mp hnosig c hc
    simpa using this
  constructor
  · intro i hi hone
    have hscan := findSpendMaxAux_single outputs 0 i hone hi
    simp only [Nat.zero_add] at hscan
    constructor
    · intro hneg
      unfold make_unsigned_transaction
      rw [hsig]
      simp only [Bool.false_eq_true, if_false, hscan]
      have : spendMaxBranch w coins outputs (fun _ => f) i =
          .error .notEnoughFunds := by
        unfold spendMaxBranch
        rw [if_pos]
        exact hneg
      simp [this, FeeArg.resolve]
    · intro hpos
      unfold make_unsigned_transaction
      rw [hsig]
      simp only [Bool.false_eq_true, if_false, hscan]
      have : spendMaxBranch w coins outputs (fun _ => f) i =
          .ok ⟨"", coins,
            (setReqValue outputs i (inputTotal coins -
              outputTotal ((setReqValue outputs i 0).map ReqOutput.toOut) - f)).map
              ReqOutput.toOut, 0, 2⟩ := by
        unfold spendMaxBranch
        rw [if_neg]
        simpa using hpos
      simp [this, FeeArg.resolve]
  · intro i j hij hj hivalue hjvalue
    unfold make_unsigned_transaction
    rw [hsig]
    simp only [Bool.false_eq_true, if_false]
    have hscan : findSpendMaxAux outputs 0 none = .error .multipleSpendMax := by
      have key : ∀ (outs : List ReqOutput) (i j : Nat) (st : Nat), i < j →
          j < outs.length →
          (outs.getD i ⟨"", .sats 0⟩).value = .spendMax →
          (outs.getD j ⟨"", .sats 0⟩).value = .spendMax →
          findSpendMaxAux outs st none = .error .multipleSpendMax := by
        intro outs
        induction outs with
        | nil => intro i j st _ hj; simp at hj
        | cons o rest ihr =>
          intro i j st hij hj hiv hjv
          rw [findSpendMaxAux]
          match i with
          | 0 =>
            have ho : o.value = .spendMax := by simpa using hiv
            rw [if_pos ho]
            match j with
            | 0 => omega
            | j + 1 =>
              have hjv' : (rest.getD j ⟨"", .sats 0⟩).value = .spendMax := by
                simpa using hjv
              have hj' : j < rest.length := by simpa using hj
              have key2 : ∀ (rest' : List ReqOutput) (j' st' a : Nat),
                  j' < rest'.length →
                  (rest'.getD j' ⟨"", .sats 0⟩).value = .spendMax →
                  findSpendMaxAux rest' st' (some a) = .error .multipleSpendMax := by
                intro rest'
                induction rest' with
                | nil => intro j' st' a hj'; simp at hj'
                | cons r rs ihs =>
                  intro j' st' a hj' hjv2
                  rw [findSpendMaxAux]
                  by_cases hr : r.value = .spendMax
                  · rw [if_pos hr]
                  · rw [if_neg hr]
                    match j' with
                    | 0 => exact absurd (by simpa using hjv2) hr
                    | j' + 1 =>
                      exact ihs j' (st' + 1) a (by simpa using hj') (by simpa using hjv2)
              exact key2 rest j (st + 1) st hj' hjv'
          | i + 1 =>
            match j with
            | 0 => omega
            | j + 1 =>
              by_cases ho : o.value = .spendMax
              · rw [if_pos ho]
                have key2 : ∀ (rest' : List ReqOutput) (j' st' a : Nat),
                    j' < rest'.length →
                    (rest'.getD j' ⟨"", .sats 0⟩).value = .spendMax →
                    findSpendMaxAux rest' st' (some a) = .error .multipleSpendMax := by
                  intro rest'
                  induction rest' with
                  | nil => intro j' st' a hj'; simp at hj'
                  | cons r rs ihs =>
                    intro j' st' a hj' hjv2
                    rw [findSpendMaxAux]
                    by_cases hr : r.value = .spendMax
                    · rw [if_pos hr]
                    · rw [if_neg hr]
                      match j' with
                      | 0 => exact absurd (by simpa using hjv2) hr
                      | j' + 1 =>
                        exact ihs j' (st' + 1) a (by simpa using hj')
                          (by simpa using hjv2)
                exact key2 rest j (st + 1) st (by simpa using hj) (by simpa using hjv)
              · rw [if_neg ho]
                exact ihr i j (st + 1) (by omega) (by simpa using hj)
                  (by simpa using hiv) (by simpa using hjv)
      exact key outputs i j 0 hij hj hivalue hjvalue
    rw [hscan]

/-- Coin chooser that never selects anything (used by concrete instances
where the chooser is irrelevant or where keeping the base inputs alone
already meets the target). -/
def nullChooser : CoinChooser := ⟨fun _ _ _ _ _ _ => some ([], [])⟩

/-- Coins of the spend-max witness. -/
def smCoins : List PartialTxInput :=
  [⟨⟨"f1", 0⟩, 60000, "m1", 0xffffffff, "", false, false, 1, false⟩,
   ⟨⟨"f2", 1⟩, 40000, "m1", 0xffffffff, "", false, false, 1, false⟩]

/-- Requested outputs of the spend-max witness: a 10000-sat payment and
one "entire remaining balance" output. -/
def smOutputs : List ReqOutput := [⟨"dest", .sats 10000⟩, ⟨"maxout", .spendMax⟩]

theorem spec_c3_witness :
    make_unsigned_transaction baseWallet nullChooser smCoins smOutputs
        (.fixed 5000) [] =
      .ok ⟨"", smCoins, [⟨"dest", 10000⟩, ⟨"maxout", 85000⟩], 0, 2⟩ := by
  have h := ((spec_c3 baseWallet nullChooser smCoins smOutputs 5000 []
    (by decide)).1 1 (by decide) (by decide)).2 (by decide)
  rw [h]
  rfl

/-! ## Fee-control engine: bump_fee -/

/-- Failure modes of `bump_fee`.  The first four are `CannotBumpFee` with
different messages; `feeTargetNotMet` is the final postcondition check,
raised as a plain `Exception` (a programming-error-level failure). -/
inductive BumpErr where
  | txFinal
  | feeUnknown
  | rateTooLow
  | cannotBump
  | feeTargetNotMet
deriving DecidableEq

/-- `Abstract_Wallet._bump_fee_through_coinchooser` (method 1): keep all
original inputs, keep the outputs that are not wallet change (with the
source's exact fallbacks when there is no change output), and let the
coin chooser add new inputs — never one spending an output of the
transaction being replaced. -/
def bump_fee_through_coinchooser (w : Wallet) (cc : CoinChooser)
    (tx : PartialTransaction) (new_fee_rate : ℚ)
    (coins : Option (List PartialTxInput)) : Option PartialTransaction :=
  let old_inputs := tx.inputs
  let old_outputs := tx.outputs
  let old_change_addrs :=
    (old_outputs.filter fun o => w.is_change_addr o.address).map (·.address)
  let change_addrs := get_change_addresses_for_new_transaction w old_change_addrs
  let fixed_outputs? : Option (List PartialTxOutput) :=
    if old_change_addrs ≠ [] then
      some (old_outputs.filter fun o => !w.is_change_addr o.address)
    else if old_outputs.all (fun o => w.is_mine_addr o.address) then
      none
    else
      let old_not_is_mine := old_outputs.filter fun o => !w.is_mine_addr o.address
      if old_not_is_mine ≠ [] then some old_not_is_mine else some old_outputs
  match fixed_outputs? with
  | none => none
  | some fixed_outputs =>
    if fixed_outputs = [] then none
    else
      let coins := (coins.getD (get_spendable_coins w none false)).filter
        fun c => c.prevout.txid ≠ tx.txid
      let fee_estimator : Nat → Int := fun size => round (new_fee_rate * size)
      cc.make_tx coins old_inputs fixed_outputs change_addrs fee_estimator w.dust

/-- Stable sort of outputs by increasing value (`sorted(s, key=value)`). -/
def sortOutputsByValue (outs : List PartialTxOutput) : List PartialTxOutput :=
  outs.foldr (fun o acc => insertByValue o acc) []
where
  insertByValue (o : PartialTxOutput) : List PartialTxOutput → List PartialTxOutput
  | [] => [o]
  | x :: xs => if o.value ≤ x.value then o :: x :: xs else x :: insertByValue o xs

/-- Loop body of `_bump_fee_through_decreasing_outputs`: walk the sorted
own outputs; the first one that can absorb the whole missing fee above
the dust threshold is decreased and the loop breaks (final delta 0);
smaller ones are deleted.  `target_fee` and the original fee are
recomputed from the unmodified transaction each round, exactly as in the
source. -/
def decLoop (dust target_fee fee0 : Int) :
    List PartialTxOutput → List PartialTxOutput → (List PartialTxOutput × Int)
  | [], outputs => (outputs, 0)
  | o :: rest, outputs =>
    let delta := target_fee - fee0
    let i := outputs.indexOf o
    if dust ≤ o.value - delta then
      (outputs.set i { o with value := o.value - delta }, 0)
    else
      let outputs' := outputs.eraseIdx i
      let delta' := delta - o.value
      match rest with
      | [] => (outputs', delta')
      | _ => decLoop dust target_fee fee0 rest outputs'

/-- `Abstract_Wallet._bump_fee_through_decreasing_outputs` (method 2):
keep the original inputs fixed and shrink outputs — wallet-owned ones
preferred, smallest first — until the fee target is met.  In the model
`round` is round-half-up where Python's is round-half-even; the
difference (exact .5 products only) affects no property proved here. -/
def bump_fee_through_decreasing_outputs (w : Wallet) (tx : PartialTransaction)
    (new_fee_rate : ℚ) : Option PartialTransaction :=
  let inputs := tx.inputs
  let outputs := tx.outputs
  let s0 := outputs.filter fun o => w.is_mine_addr o.address
  let s := if s0 = [] then outputs else s0
  if s = [] then none
  else
    let target_fee : Int := round ((w.estimated_size tx.inputs tx.outputs : ℚ) * new_fee_rate)
    let pr := decLoop w.dust target_fee tx.get_fee (sortOutputsByValue s) outputs
    if 0 < pr.2 then none
    else some ⟨"", inputs, pr.1, 0, 2⟩

/-- Rebuild path of `bump_fee` (the body after its precondition guards):
try the coin-chooser rebuild, fall back to output shrinking (the source
catches only `CannotBumpFee` from method 1); enforce the fee target to
one satoshi of rounding tolerance on whatever came out, and timelock. -/
def bumpRebuild (w : Wallet) (cc : CoinChooser) (tx : PartialTransaction)
    (new_fee_rate : ℚ) (coins : Option (List PartialTxInput)) :
    Except BumpErr PartialTransaction :=
  let tx_new? :=
    match bump_fee_through_coinchooser w cc tx new_fee_rate coins with
    | some t => some t
    | none => bump_fee_through_decreasing_outputs w tx new_fee_rate
  match tx_new? with
  | none => .error .cannotBump
  | some tx_new =>
    let target_min_fee := new_fee_rate * (w.estimated_size tx_new.inputs tx_new.outputs : ℚ)
    let actual_fee := tx_new.get_fee
    if (actual_fee : ℚ) + 1 < target_min_fee then .error .feeTargetNotMet
    else .ok { tx_new with locktime := w.new_locktime }

/-- `Abstract_Wallet.bump_fee`: reject final transactions, unknown fees
and non-increasing rates, then rebuild.  `quantize_feerate` (precision
stripping of the rate, in the missing `util.py`) is the identity here:
`new_fee_rate` stands for the already-quantized rate. -/
def bump_fee (w : Wallet) (cc : CoinChooser) (tx : PartialTransaction)
    (new_fee_rate : ℚ) (coins : Option (List PartialTxInput)) :
    Except BumpErr PartialTransaction :=
  if tx.is_final then .error .txFinal
  else
    let old_tx_size := w.estimated_size tx.inputs tx.outputs
    match w.tx_fees tx.txid with
    | none => .error .feeUnknown
    | some old_fee =>
      let old_fee_rate : ℚ := old_fee / old_tx_size
      if new_fee_rate ≤ old_fee_rate then .error .rateTooLow
      else bumpRebuild w cc tx new_fee_rate coins

theorem bump_fee_coinchooser_inputs (w : Wallet) (cc : CoinChooser)
    (tx : PartialTransaction) (rate : ℚ) (coins : Option (List PartialTxInput))
    (t : PartialTransaction)
    (h : bump_fee_through_coinchooser w cc tx rate coins = some t) :
    ∀ i ∈ t.inputs, i ∈ tx.inputs ∨ i.prevout.txid ≠ tx.txid := by
  unfold bump_fee_through_coinchooser at h
  dsimp only at h
  split at h
  · cases h
  · split at h
    · cases h
    · intro i hi
      rcases CoinChooser.make_tx_inputs cc _ _ _ _ _ _ t h i hi with h1 | h1
      · exact Or.inl h1
      · right
        have := List.of_mem_filter h1
        simpa using this

theorem bump_fee_decrease_inputs (w : Wallet) (tx : PartialTransaction) (rate : ℚ)
    (t : PartialTransaction)
    (h : bump_fee_through_decreasing_outputs w tx rate = some t) :
    t.inputs = tx.inputs := by
  unfold bump_fee_through_decreasing_outputs at h
  dsimp only at h
  set s := (if (tx.outputs.filter fun o => w.is_mine_addr o.address) = [] then tx.outputs
    else tx.outputs.filter fun o => w.is_mine_addr o.address) with hs
  by_cases hemp : s = []
  · rw [if_pos hemp] at h; cases h
  · rw [if_neg hemp] at h
    set pr := decLoop w.dust (round ((w.estimated_size tx.inputs tx.outputs : ℚ) * rate))
      tx.get_fee (sortOutputsByValue s) tx.outputs with hpr
    by_cases hd : 0 < pr.2
    · rw [if_pos hd] at h; cases h
    · rw [if_neg hd] at h
      cases h
      rfl

/-- Claim C1: whenever `bump_fee` succeeds, the result's fee is at least
`new_fee_rate` times its estimated size up to one satoshi of rounding
tolerance, and — provided the replaced transaction did not spend its own
outputs, as no well-formed transaction can — no input of the result
spends an output of the replaced transaction. -/
theorem spec_c1 (w : Wallet) (cc : CoinChooser) (tx : PartialTransaction)
    (new_fee_rate : ℚ) (coins : Option (List PartialTxInput))
    (tx' : PartialTransaction)
    (hself : ∀ i ∈ tx.inputs, i.prevout.txid ≠ tx.txid)
    (h : bump_fee w cc tx new_fee_rate coins = .ok tx') :
    new_fee_rate * (w.estimated_size tx'.inputs tx'.outputs : ℚ) ≤ (tx'.get_fee : ℚ) + 1 ∧
    ∀ i ∈ tx'.inputs, i.prevout.txid ≠ tx.txid := by
  unfold bump_fee at h
  split at h
  · cases h
  · dsimp only at h
    split at h
    · cases h
    · unfold bumpRebuild at h
      split at h
      · cases h
      · dsimp only at h
        split at h
        · cases h
        · next tx_new htn =>
          split at h
          · cases h
          · next htgt =>
            cases h
            constructor
            · exact le_of_not_lt htgt
            · intro i hi
              have hi' : i ∈ tx_new.inputs := hi
              have hcases : (∃ t, bump_fee_through_coinchooser w cc tx new_fee_rate coins = some t ∧
                    tx_new = t) ∨
                  bump_fee_through_decreasing_outputs w tx new_fee_rate = some tx_new := by
                cases hc : bump_fee_through_coinchooser w cc tx new_fee_rate coins with
                | some t =>
                  rw [hc] at htn
                  simp only [Option.some.injEq] at htn
                  exact Or.inl ⟨t, rfl, htn.symm⟩
                | none => rw [hc] at htn; exact Or.inr htn
              rcases hcases with ⟨t, hc, ht⟩ | hc
              · subst ht
                rcases bump_fee_coinchooser_inputs w cc tx new_fee_rate coins tx_new hc i hi' with h1 | h1
                · exact hself i h1
                · exact h1
              · have := bump_fee_decrease_inputs w tx new_fee_rate tx_new hc
                rw [this] at hi'
                exact hself i hi'

/-- Claim C4: `bump_fee` fails with `CannotBumpFee` on a final
transaction, on an unknown current fee, and on a target rate not above
the current fee rate; the rebuild path is reached exactly when none of
these preconditions is violated. -/
theorem spec_c4 (w : Wallet) (cc : CoinChooser) (tx : PartialTransaction)
    (new_fee_rate : ℚ) (coins : Option (List PartialTxInput)) :
    (tx.is_final = true → bump_fee w cc tx new_fee_rate coins = .error .txFinal) ∧
    (tx.is_final = false → w.tx_fees tx.txid = none →
      bump_fee w cc tx new_fee_rate coins = .error .feeUnknown) ∧
    (∀ old_fee, tx.is_final = false → w.tx_fees tx.txid = some old_fee →
      new_fee_rate ≤ (old_fee : ℚ) / (w.estimated_size tx.inputs tx.outputs : ℚ) →
      bump_fee w cc tx new_fee_rate coins = .error .rateTooLow) ∧
    (∀ old_fee, tx.is_final = false → w.tx_fees tx.txid = some old_fee →
      (old_fee : ℚ) / (w.estimated_size tx.inputs tx.outputs : ℚ) < new_fee_rate →
      bump_fee w cc tx new_fee_rate coins = bumpRebuild w cc tx new_fee_rate coins) := by
  refine ⟨?_, ?_, ?_, ?_⟩
  · intro hfin
    unfold bump_fee
    rw [if_pos hfin]
  · intro hfin hfee
    unfold bump_fee
    rw [if_neg (by simp [hfin])]
    dsimp only
    rw [hfee]
  · intro old_fee hfin hfee hrate
    unfold bump_fee
    rw [if_neg (by simp [hfin])]
    dsimp only
    rw [hfee]
    dsimp only
    rw [if_pos hrate]
  · intro old_fee hfin hfee hrate
    unfold bump_fee
    rw [if_neg (by simp [hfin])]
    dsimp only
    rw [hfee]
    dsimp only
    rw [if_neg (not_le.mpr hrate)]

/-- Replaceable (not final) transaction used by the bump witnesses: one
100000-sat input, one 90000-sat payment, 10000-sat fee over 100 vbytes. -/
def bumpTx : PartialTransaction :=
  ⟨"orig", [⟨⟨"p1", 0⟩, 100000, "m1", 0xfffffffd, "", false, false, 3, false⟩],
   [⟨"dest", 90000⟩], 0, 2⟩

/-- Wallet knowing `bumpTx`'s fee. -/
def bumpWallet : Wallet :=
  { baseWallet with tx_fees := fun t => if t = "orig" then some 10000 else none }

/-- Result of bumping `bumpTx` to 100.01 sat/vbyte with no new coins. -/
def bumpRes : PartialTransaction :=
  ⟨"", bumpTx.inputs, [⟨"dest", 90000⟩], 0, 2⟩

theorem spec_c1_witness :
    (10001 / 100 : ℚ) * (bumpWallet.estimated_size bumpRes.inputs bumpRes.outputs : ℚ)
        ≤ (bumpRes.get_fee : ℚ) + 1 ∧
    ∀ i ∈ bumpRes.inputs, i.prevout.txid ≠ bumpTx.txid := by
  have hbump : bump_fee bumpWallet nullChooser bumpTx (10001 / 100) (some []) = .ok bumpRes := by
    unfold bump_fee
    rw [if_neg (by decide)]
    dsimp only
    rw [show bumpWallet.tx_fees bumpTx.txid = some 10000 from rfl]
    dsimp only
    rw [if_neg (by
      rw [show bumpWallet.estimated_size bumpTx.inputs bumpTx.outputs = 100 from rfl]
      norm_num)]
    unfold bumpRebuild
    rw [show bump_fee_through_coinchooser bumpWallet nullChooser bumpTx (10001 / 100)
      (some []) = some ⟨"", bumpTx.inputs, [⟨"dest", 90000⟩], 0, 2⟩ from rfl]
    dsimp only
    rw [if_neg (by
      rw [show bumpWallet.estimated_size bumpTx.inputs [⟨"dest", 90000⟩] = 100 from rfl]
      norm_num [PartialTransaction.get_fee, inputTotal, outputTotal, bumpTx])]
    rfl
  exact spec_c1 bumpWallet nullChooser bumpTx (10001 / 100) (some []) bumpRes
    (by decide) hbump

theorem spec_c4_witness :
    bump_fee bumpWallet nullChooser bumpTx 50 (some []) = .error .rateTooLow :=
  (spec_c4 bumpWallet nullChooser bumpTx 50 (some [])).2.2.1 10000
    (by decide) (by decide)
    (by
      rw [show bumpWallet.estimated_size bumpTx.inputs bumpTx.outputs = 100 from rfl]
      norm_num)

/-! ## Fee-control engine: CPFP -/

/-- `Abstract_Wallet.get_unused_addresses`: receiving addresses never
used and not reserved by an active payment request. -/
def get_unused_addresses (w : Wallet) : List String :=
  w.receiving_addresses.filter fun a =>
    !w.is_used_addr a && !w.in_use_by_request.contains a

/-- `Abstract_Wallet.get_unused_address`: the first unused address. -/
def get_unused_address (w : Wallet) : Option String :=
  (get_unused_addresses w).head?

/-- `Abstract_Wallet.cpfp`: find the first wallet-owned output of the
parent; silently give up when none exists or when the corresponding
outpoint is not among the wallet's unspent outputs for that address;
otherwise spend exactly that outpoint to a fresh (or the same) wallet
address, paying its value minus the child fee. -/
def cpfp (w : Wallet) (tx : PartialTransaction) (fee : Int) :
    Option PartialTransaction :=
  match tx.outputs.enum.find? (fun io => w.is_mine_addr io.2.address) with
  | none => none
  | some (i, o) =>
    match w.addr_utxo o.address ⟨tx.txid, i⟩ with
    | none => none
    | some item =>
      let out_address := (get_unused_address w).getD o.address
      some ⟨"", [item], [⟨out_address, o.value - fee⟩], w.new_locktime, 2⟩

/-- Claim C6 (amended): `cpfp` returns none when no output of the parent
is wallet-owned, and also when the located first wallet-owned output is
not among the wallet's unspent outputs; when that outpoint is present,
the result's sole input is exactly that outpoint and its single output
pays the output's value minus the fee to a wallet address.  The two
well-formedness hypotheses say that the UTXO lookup is keyed by outpoint
and that receiving addresses are the wallet's own. -/
theorem spec_c6 (w : Wallet) (tx : PartialTransaction) (fee : Int)
    (hwf : ∀ a p item, w.addr_utxo a p = some item → item.prevout = p)
    (hrecv : ∀ a ∈ w.receiving_addresses, w.is_mine_addr a = true) :
    (tx.outputs.all (fun o => !w.is_mine_addr o.address) = true →
      cpfp w tx fee = none) ∧
    (∀ i o, tx.outputs.enum.find? (fun io => w.is_mine_addr io.2.address) = some (i, o) →
      (w.addr_utxo o.address ⟨tx.txid, i⟩ = none → cpfp w tx fee = none) ∧
      (∀ item, w.addr_utxo o.address ⟨tx.txid, i⟩ = some item →
        ∃ addr', cpfp w tx fee =
            some ⟨"", [item], [⟨addr', o.value - fee⟩], w.new_locktime, 2⟩ ∧
          item.prevout = ⟨tx.txid, i⟩ ∧ w.is_mine_addr addr' = true)) := by
  constructor
  · intro hall
    unfold cpfp
    have hnone : tx.outputs.enum.find? (fun io => w.is_mine_addr io.2.address) = none := by
      rw [List.find?_eq_none]
      rintro ⟨i, o⟩ hio
      obtain ⟨hi, ha⟩ := List.mem_enum hio
      have ho : o ∈ tx.outputs := by rw [ha]; exact List.getElem_mem hi
      have := List.all_eq_true.mp hall o ho
      simpa using this
    rw [hnone]
  · intro i o hfind
    constructor
    · intro hnone
      unfold cpfp
      rw [hfind]
      dsimp only
      rw [hnone]
    · intro item hitem
      unfold cpfp
      rw [hfind]
      dsimp only
      rw [hitem]
      refine ⟨(get_unused_address w).getD o.address, rfl, hwf _ _ _ hitem, ?_⟩
      cases hu : get_unused_address w with
      | some a =>
        simp only [hu, Option.getD_some]
        have ha : a ∈ get_unused_addresses w := by
          unfold get_unused_address at hu
          exact List.mem_of_mem_head? (Option.mem_def.mpr hu)
        exact hrecv a (List.mem_of_mem_filter ha)
      | none =>
        simp only [hu, Option.getD_none]
        have := List.find?_some hfind
        simpa using this

/-- Parent transaction of the CPFP instances: its only output is
wallet-owned. -/
def cpfpTx : PartialTransaction := ⟨"par", [], [⟨"m1", 5000⟩], 0, 2⟩

/-- Wallet owning `m1` but with an empty UTXO set: the parent's output is
not spendable (e.g. already spent). -/
def cpfpWalletSpent : Wallet :=
  { baseWallet with is_mine_addr := fun a => a = "m1" }

/-- Counterexample to claim C6 as stated: the parent has a wallet-owned
output, yet `cpfp` returns none because that outpoint is not among the
wallet's unspent outputs. -/
theorem spec_c6_counterexample :
    (cpfpTx.outputs.any (fun o => cpfpWalletSpent.is_mine_addr o.address) = true) ∧
    cpfp cpfpWalletSpent cpfpTx 100 = none := by
  exact ⟨by decide, by rfl⟩

/-- The unspent output of the CPFP witness wallet. -/
def cpfpItem : PartialTxInput :=
  ⟨⟨"par", 0⟩, 5000, "m1", 0xffffffff, "", false, false, 0, false⟩

/-- Wallet owning `m1` whose UTXO lookup finds the parent's output. -/
def cpfpWallet : Wallet :=
  { baseWallet with
    is_mine_addr := fun a => a = "m1"
    addr_utxo := fun _ p =>
      if p = (⟨"par", 0⟩ : TxOutpoint) then
        some ⟨p, 5000, "m1", 0xffffffff, "", false, false, 0, false⟩
      else none }

theorem spec_c6_witness :
    ∃ addr', cpfp cpfpWallet cpfpTx 100 =
        some ⟨"", [cpfpItem], [⟨addr', 5000 - 100⟩], cpfpWallet.new_locktime, 2⟩ ∧
      cpfpItem.prevout = ⟨cpfpTx.txid, 0⟩ ∧ cpfpWallet.is_mine_addr addr' = true := by
  have hwf : ∀ a p item, cpfpWallet.addr_utxo a p = some item → item.prevout = p := by
    intro a p item h
    simp only [cpfpWallet, baseWallet] at h
    by_cases hp : p = (⟨"par", 0⟩ : TxOutpoint)
    · rw [if_pos hp] at h
      cases h
      rfl
    · rw [if_neg hp] at h
      cases h
  exact ((spec_c6 cpfpWallet cpfpTx 100 hwf (by intro a ha; cases ha)).2 0 ⟨"m1", 5000⟩
    (by decide)).2 cpfpItem (by decide)

/-! ## Sweep -/

/-- External collaborators of `sweep`: WIF decoding and key derivation
(`bitcoin.py`/`ecc.py`), the network's `listunspent` lookup, and the fee,
dust and size oracles. -/
structure SweepEnv where
  deserialize_privkey : String → String × String × Bool
  is_minikey : String → Bool
  pubkey_of : String → Bool → String
  listunspent : String → String → List (TxOutpoint × Int)
  dust : Int
  estimate_fee : Nat → Int
  estimated_size : List PartialTxInput → List PartialTxOutput → Nat
  new_locktime : Nat

/-- Failure modes of `sweep` (all plain `Exception`s in the source, with
distinct messages). -/
inductive SweepErr where
  | unexpectedTxinType
  | noInputs
  | notEnoughFunds
  | belowDust
deriving DecidableEq

/-- `_append_utxos_to_inputs`: turn each unspent output found for the
public key into an input carrying that key, stopping at `imax`.  The
address stands for the key's script. -/
def appendUtxosToInputs (env : SweepEnv) (inputs : List PartialTxInput)
    (pubkey txin_type : String) (imax : Nat) : List PartialTxInput :=
  (env.listunspent txin_type pubkey).foldl
    (fun ins item =>
      if imax ≤ ins.length then ins
      else ins ++ [⟨item.1, item.2, pubkey, 0xffffffff, pubkey, false, false, 0, false⟩])
    inputs

/-- `find_utxos_for_privkey` inside `sweep_preparations`: derive the
public key, collect its unspent outputs, record the keypair.  The state
is (inputs so far, public keys whose private key is known). -/
def findUtxosForPrivkey (env : SweepEnv) (imax : Nat)
    (st : List PartialTxInput × List String) (txin_type privkey : String)
    (compressed : Bool) : Except SweepErr (List PartialTxInput × List String) :=
  if txin_type = "p2pkh" ∨ txin_type = "p2wpkh" ∨ txin_type = "p2wpkh-p2sh" ∨
      txin_type = "p2pk" then
    let pubkey := env.pubkey_of privkey compressed
    .ok (appendUtxosToInputs env st.1 pubkey txin_type imax, st.2 ++ [pubkey])
  else .error .unexpectedTxinType

/-- Loop of `sweep_preparations` over the supplied private keys, with the
extra coverage lookups (both compressions for minikeys, p2pk for WIF
p2pkh keys). -/
def sweepPrepGo (env : SweepEnv) (imax : Nat) :
    List String → (List PartialTxInput × List String) →
    Except SweepErr (List PartialTxInput × List String)
  | [], st => .ok st
  | sec :: rest, st =>
    let d := env.deserialize_privkey sec
    match findUtxosForPrivkey env imax st d.1 d.2.1 d.2.2 with
    | .error e => .error e
    | .ok st1 =>
      let nxt :=
        if env.is_minikey sec then findUtxosForPrivkey env imax st1 d.1 d.2.1 (!d.2.2)
        else if d.1 = "p2pkh" then findUtxosForPrivkey env imax st1 "p2pk" d.2.1 d.2.2
        else .ok st1
      match nxt with
      | .error e => .error e
      | .ok st2 => sweepPrepGo env imax rest st2

/-- `sweep_preparations`: collect inputs and keypairs for all private
keys; no discovered input is an error. -/
def sweep_preparations (env : SweepEnv) (privkeys : List String) (imax : Nat) :
    Except SweepErr (List PartialTxInput × List String) :=
  match sweepPrepGo env imax privkeys ([], []) with
  | .error e => .error e
  | .ok (inputs, keypairs) =>
    if inputs = [] then .error .noInputs else .ok (inputs, keypairs)

/-- `PartialTransaction.sign` with the sweep keypairs: an input is signed
exactly when its key's private key is among the keypairs. -/
def signWithKeypairs (tx : PartialTransaction) (keypairs : List String) :
    PartialTransaction :=
  { tx with inputs := tx.inputs.map fun i =>
      if keypairs.contains i.pubkey then { i with signed := true } else i }

/-- `wallet.sweep`: aggregate the discovered inputs, optionally estimate
the fee, reject a negative or below-dust remainder, pay everything minus
the fee to `to_address`, disable RBF and sign with all keys. -/
def sweep (env : SweepEnv) (privkeys : List String) (to_address : String)
    (fee? : Option Int) (imax : Nat) (locktime? : Option Nat)
    (tx_version : Option Nat) : Except SweepErr PartialTransaction :=
  match sweep_preparations env privkeys imax with
  | .error e => .error e
  | .ok (inputs, keypairs) =>
    let total : Int := inputTotal inputs
    let fee : Int := match fee? with
      | some f => f
      | none => env.estimate_fee (env.estimated_size inputs [⟨to_address, total⟩])
    if total - fee < 0 then .error .notEnoughFunds
    else if total - fee < env.dust then .error .belowDust
    else
      let outputs : List PartialTxOutput := [⟨to_address, total - fee⟩]
      let locktime := locktime?.getD env.new_locktime
      let tx : PartialTransaction := ⟨"", inputs, outputs, locktime, tx_version.getD 2⟩
      .ok (signWithKeypairs (tx.set_rbf false) keypairs)

theorem appendUtxos_mem (pubkey : String) (imax : Nat) :
    ∀ (items : List (TxOutpoint × Int)) (ins : List PartialTxInput) i,
      i ∈ items.foldl
        (fun ins item =>
          if imax ≤ ins.length then ins
          else ins ++ [⟨item.1, item.2, pubkey, 0xffffffff, pubkey, false, false, 0, false⟩])
        ins →
      i ∈ ins ∨ i.pubkey = pubkey := by
  intro items
  induction items with
  | nil => intro ins i hi; exact Or.inl hi
  | cons item rest ih =>
    intro ins i hi
    rw [List.foldl_cons] at hi
    rcases ih _ i hi with h1 | h1
    · by_cases hc : imax ≤ ins.length
      · rw [if_pos hc] at h1; exact Or.inl h1
      · rw [if_neg hc] at h1
        rcases List.mem_append.mp h1 with h2 | h2
        · exact Or.inl h2
        · right
          rw [List.mem_singleton.mp h2]
    · exact Or.inr h1

/-- Invariant of the sweep preparation state: the private key of every
collected input's public key is known. -/
def PrepInv (st : List PartialTxInput × List String) : Prop :=
  ∀ i ∈ st.1, i.pubkey ∈ st.2

theorem findUtxosForPrivkey_inv (env : SweepEnv) (imax : Nat)
    (st : List PartialTxInput × List String) (t p : String) (c : Bool)
    (st' : List PartialTxInput × List String)
    (hst : PrepInv st) (h : findUtxosForPrivkey env imax st t p c = .ok st') :
    PrepInv st' := by
  unfold findUtxosForPrivkey at h
  split at h
  · cases h
    intro i hi
    rcases appendUtxos_mem (env.pubkey_of p c) imax _ _ i
      (by simpa [appendUtxosToInputs] using hi) with h1 | h1
    · exact List.mem_append_left _ (hst i h1)
    · rw [h1]
      exact List.mem_append_right _ (by simp)
  · cases h

theorem sweepPrepGo_inv (env : SweepEnv) (imax : Nat) :
    ∀ (privkeys : List String) (st st' : List PartialTxInput × List String),
      PrepInv st → sweepPrepGo env imax privkeys st = .ok st' → PrepInv st' := by
  intro privkeys
  induction privkeys with
  | nil =>
    intro st st' hst h
    rw [sweepPrepGo] at h
    cases h
    exact hst
  | cons sec rest ih =>
    intro st st' hst h
    rw [sweepPrepGo] at h
    dsimp only at h
    split at h
    · cases h
    · next st1 h1 =>
      have hst1 : PrepInv st1 := findUtxosForPrivkey_inv env imax st _ _ _ st1 hst h1
      split at h
      · cases h
      · next st2 h2 =>
        have hst2 : PrepInv st2 := by
          by_cases hmk : env.is_minikey sec = true
          · rw [if_pos hmk] at h2
            exact findUtxosForPrivkey_inv env imax st1 _ _ _ st2 hst1 h2
          · rw [if_neg hmk] at h2
            by_cases hp : (env.deserialize_privkey sec).1 = "p2pkh"
            · rw [if_pos hp] at h2
              exact findUtxosForPrivkey_inv env imax st1 _ _ _ st2 hst1 h2
            · rw [if_neg hp] at h2
              cases h2
              exact hst1
        exact ih st2 st' hst2 h

theorem sweep_preparations_inv (env : SweepEnv) (privkeys : List String) (imax : Nat)
    (inputs : List PartialTxInput) (keypairs : List String)
    (h : sweep_preparations env privkeys imax = .ok (inputs, keypairs)) :
    ∀ i ∈ inputs, i.pubkey ∈ keypairs := by
  unfold sweep_preparations at h
  split at h
  · cases h
  · next st hgo =>
    split at h
    · cases h
    · cases h
      exact sweepPrepGo_inv env imax privkeys ([], []) _ (by intro i hi; cases hi) hgo

theorem inputTotal_map_nseq_sign (l : List PartialTxInput) (keypairs : List String) :
    inputTotal ((l.map fun i => { i with nsequence := 0xfffffffe }).map fun i =>
      if keypairs.contains i.pubkey then { i with signed := true } else i) = inputTotal l := by
  unfold inputTotal
  rw [List.map_map, List.map_map]
  congr 1
  apply List.map_congr_left
  intro i _
  simp only [Function.comp]
  split <;> rfl

/-- Claim C8: every successful `sweep` with an explicit fee is fully
signed and pays exactly the discovered total minus the fee to the target
address in a single output; and whenever the remainder is negative or
below the dust threshold the call fails with an insufficient-funds
error. -/
theorem spec_c8 (env : SweepEnv) (privkeys : List String) (to_address : String)
    (f : Int) (imax : Nat) (locktime? : Option Nat) (tx_version : Option Nat) :
    (∀ tx', sweep env privkeys to_address (some f) imax locktime? tx_version = .ok tx' →
      (∀ i ∈ tx'.inputs, i.signed = true) ∧
      tx'.outputs = [⟨to_address, inputTotal tx'.inputs - f⟩] ∧
      0 ≤ inputTotal tx'.inputs - f ∧ env.dust ≤ inputTotal tx'.inputs - f) ∧
    (∀ inputs keypairs,
      sweep_preparations env privkeys imax = .ok (inputs, keypairs) →
      (inputTotal inputs - f < 0 ∨ inputTotal inputs - f < env.dust) →
      ∃ e, sweep env privkeys to_address (some f) imax locktime? tx_version = .error e ∧
        (e = .notEnoughFunds ∨ e = .belowDust)) := by
  constructor
  · intro tx' h
    unfold sweep at h
    split at h
    · cases h
    · next inputs keypairs hprep =>
      dsimp only at h
      split at h
      · cases h
      · split at h
        · cases h
        · next hneg hdust =>
          cases h
          have hinv := sweep_preparations_inv env privkeys imax inputs keypairs hprep
          have htot : inputTotal ((signWithKeypairs
              ((⟨"", inputs, [⟨to_address, inputTotal inputs - f⟩],
                locktime?.getD env.new_locktime, tx_version.getD 2⟩ :
                PartialTransaction).set_rbf false) keypairs).inputs) =
              inputTotal inputs := by
            unfold signWithKeypairs PartialTransaction.set_rbf
            dsimp only
            exact inputTotal_map_nseq_sign inputs keypairs
          refine ⟨?_, ?_, ?_, ?_⟩
          · intro i hi
            unfold signWithKeypairs PartialTransaction.set_rbf at hi
            dsimp only at hi
            rw [List.map_map] at hi
            obtain ⟨j, hj, hji⟩ := List.mem_map.mp hi
            have hjp : j.pubkey ∈ keypairs := hinv j hj
            rw [← hji]
            simp [Function.comp, hjp]
          · rw [htot]
            rfl
          · rw [htot]
            omega
          · rw [htot]
            omega
  · intro inputs keypairs hprep hbad
    unfold sweep
    rw [hprep]
    dsimp only
    by_cases hneg : inputTotal inputs - f < 0
    · rw [if_pos hneg]
      exact ⟨.notEnoughFunds, rfl, Or.inl rfl⟩
    · rw [if_neg hneg]
      have hdust : inputTotal inputs - f < env.dust := by
        rcases hbad with h1 | h1
        · exact absurd h1 hneg
        · exact h1
      rw [if_pos hdust]
      exact ⟨.belowDust, rfl, Or.inr rfl⟩

/-- Environment of the sweep witness: a single WIF key controlling two
unspent outputs worth 50000 sats in total. -/
def sweepEnv : SweepEnv where
  deserialize_privkey := fun s => ("p2wpkh", s, true)
  is_minikey := fun _ => false
  pubkey_of := fun priv _ => "P" ++ priv
  listunspent := fun t p =>
    if t = "p2wpkh" && p = "Pk1" then [(⟨"u1", 0⟩, 30000), (⟨"u2", 1⟩, 20000)] else []
  dust := 546
  estimate_fee := fun _ => 0
  estimated_size := fun _ _ => 100
  new_locktime := 0

/-- Result of sweeping `sweepEnv` with a 5000-sat fee. -/
def sweepRes : PartialTransaction :=
  ⟨"", [⟨⟨"u1", 0⟩, 30000, "Pk1", 0xfffffffe, "Pk1", true, false, 0, false⟩,
        ⟨⟨"u2", 1⟩, 20000, "Pk1", 0xfffffffe, "Pk1", true, false, 0, false⟩],
   [⟨"dest", 45000⟩], 0, 2⟩

theorem spec_c8_witness :
    (∀ i ∈ sweepRes.inputs, i.signed = true) ∧
    sweepRes.outputs = [⟨"dest", inputTotal sweepRes.inputs - 5000⟩] ∧
    0 ≤ inputTotal sweepRes.inputs - 5000 ∧
    sweepEnv.dust ≤ inputTotal sweepRes.inputs - 5000 :=
  (spec_c8 sweepEnv ["k1"] "dest" 5000 100 none none).1 sweepRes (by rfl)

/-! ## Double-spend cancel (modelled from the spec) -/

/-- Failure modes of the modelled `dscancel`. -/
inductive DscancelErr where
  | cannotCancel
  | notEnoughFunds
deriving DecidableEq

/-- Destination of the cancel output: a fresh unused wallet address when
one exists, else the address of a reclaimed input. -/
def dscancelOutAddr (w : Wallet) (ins : List PartialTxInput)  : Option String :=
  match get_unused_address w with
  | some a => some a
  | none => (ins.map (·.address)).head?

/-- Modelled from the spec: `wallet.dscancel` is code of this repository
absent from src/ (only its tests reference it).  Per spec section 4.5 it
is only valid when not every output is wallet-owned, and builds a minimal
1-output transaction spending the wallet-owned subset of the original
inputs (the same inputs, when all are wallet-owned) back to a wallet
address at a fee meeting `new_fee_rate`; with no reclaimable input or a
below-dust remainder nothing can be built. -/
def dscancel (w : Wallet) (tx : PartialTransaction) (new_fee_rate : ℚ) :
    Except DscancelErr PartialTransaction :=
  if tx.outputs.all (fun o => w.is_mine_addr o.address) then .error .cannotCancel
  else
    let ins := tx.inputs.filter fun i => w.is_mine_addr i.address
    match dscancelOutAddr w ins with
    | none => .error .cannotCancel
    | some out_address =>
      let total := inputTotal ins
      let size := w.estimated_size ins [⟨out_address, 0⟩]
      let fee : Int := ⌈new_fee_rate * (size : ℚ)⌉
      let value := total - fee
      if value < w.dust then .error .notEnoughFunds
      else .ok ⟨"", ins, [⟨out_address, value⟩], w.new_locktime, 2⟩

theorem get_fee_reclaim (ins : List PartialTxInput) (addr : String) (fee : Int)
    (lk v : Nat) :
    (⟨"", ins, [⟨addr, inputTotal ins - fee⟩], lk, v⟩ :
      PartialTransaction).get_fee = fee := by
  simp [PartialTransaction.get_fee, outputTotal]

/-- Claim C5: `dscancel` reports "cannot cancel" when every output of the
transaction is wallet-owned, and otherwise (on success) builds a 1-output
transaction whose inputs are exactly the wallet-owned subset of the
original inputs and whose single output sends the reclaimed total minus a
fee meeting `new_fee_rate` to a wallet address. -/
theorem spec_c5 (w : Wallet) (tx : PartialTransaction) (rate : ℚ)
    (hrecv : ∀ a ∈ w.receiving_addresses, w.is_mine_addr a = true) :
    (tx.outputs.all (fun o => w.is_mine_addr o.address) = true →
      dscancel w tx rate = .error .cannotCancel) ∧
    (∀ tx', dscancel w tx rate = .ok tx' →
      tx'.inputs = tx.inputs.filter (fun i => w.is_mine_addr i.address) ∧
      (∀ i ∈ tx'.inputs, i ∈ tx.inputs ∧ w.is_mine_addr i.address = true) ∧
      ∃ addr value, tx'.outputs = [⟨addr, value⟩] ∧ w.is_mine_addr addr = true ∧
        rate * (w.estimated_size tx'.inputs [⟨addr, 0⟩] : ℚ) ≤ (tx'.get_fee : ℚ)) := by
  constructor
  · intro hall
    unfold dscancel
    rw [if_pos hall]
  · intro tx' h
    unfold dscancel at h
    split at h
    · cases h
    · dsimp only at h
      split at h
      · cases h
      · next out_address haddr =>
        split at h
        · cases h
        · next hval =>
          cases h
          refine ⟨rfl, ?_, ?_⟩
          · intro i hi
            exact ⟨List.mem_of_mem_filter hi, by simpa using List.of_mem_filter hi⟩
          · refine ⟨out_address, _, rfl, ?_, ?_⟩
            · unfold dscancelOutAddr at haddr
              cases hu : get_unused_address w with
              | some a =>
                rw [hu] at haddr
                dsimp only at haddr
                injection haddr with haa
                rw [← haa]
                have ha : a ∈ get_unused_addresses w := by
                  unfold get_unused_address at hu
                  exact List.mem_of_mem_head? (Option.mem_def.mpr hu)
                exact hrecv a (List.mem_of_mem_filter ha)
              | none =>
                rw [hu] at haddr
                dsimp only at haddr
                have := List.mem_of_mem_head? (Option.mem_def.mpr haddr)
                obtain ⟨j, hj, hja⟩ := List.mem_map.mp this
                rw [← hja]
                simpa using List.of_mem_filter hj
            · dsimp only
              rw [get_fee_reclaim]
              exact Int.le_ceil _


/-- Transaction of the dscancel witness: one reclaimable wallet input,
one foreign input, and a not-wallet-owned payment output. -/
def dsTx : PartialTransaction :=
  ⟨"ds", [⟨⟨"x1", 0⟩, 50000, "m1", 0xfffffffd, "", false, false, 0, false⟩,
          ⟨⟨"x2", 0⟩, 10000, "other", 0xfffffffd, "", false, false, 0, false⟩],
   [⟨"ext", 55000⟩], 0, 2⟩

/-- Wallet of the dscancel witness: owns `m1` only. -/
def dsWallet : Wallet :=
  { baseWallet with is_mine_addr := fun a => a = "m1" }

/-- Result of cancelling `dsTx` at 2 sat/vbyte over 100 vbytes. -/
def dsRes : PartialTransaction :=
  ⟨"", [⟨⟨"x1", 0⟩, 50000, "m1", 0xfffffffd, "", false, false, 0, false⟩],
   [⟨"m1", 49800⟩], 0, 2⟩

theorem spec_c5_witness :
    dsRes.inputs = dsTx.inputs.filter (fun i => dsWallet.is_mine_addr i.address) ∧
    (∀ i ∈ dsRes.inputs, i ∈ dsTx.inputs ∧ dsWallet.is_mine_addr i.address = true) ∧
    ∃ addr value, dsRes.outputs = [⟨addr, value⟩] ∧ dsWallet.is_mine_addr addr = true ∧
      2 * (dsWallet.estimated_size dsRes.inputs [⟨addr, 0⟩] : ℚ) ≤ (dsRes.get_fee : ℚ) := by
  have hds : dscancel dsWallet dsTx 2 = .ok dsRes := by
    unfold dscancel
    rw [if_neg (by decide)]
    dsimp only
    rw [show dscancelOutAddr dsWallet
      (dsTx.inputs.filter fun i => dsWallet.is_mine_addr i.address) = some "m1" from rfl]
    dsimp only
    have hceil : (⌈(2 : ℚ) * ((dsWallet.estimated_size
        (dsTx.inputs.filter fun i => dsWallet.is_mine_addr i.address)
        [⟨"m1", 0⟩] : ℕ) : ℚ)⌉ : ℤ) = 200 := by
      rw [show dsWallet.estimated_size
        (dsTx.inputs.filter fun i => dsWallet.is_mine_addr i.address)
        [⟨"m1", 0⟩] = 100 from rfl]
      norm_num
    rw [hceil]
    rw [if_neg (by decide)]
    rfl
  exact (spec_c5 dsWallet dsTx 2 (by intro a ha; cases ha)).2 dsRes hds

/-! ## RBF opt-in is disabled by mktx and sweep -/

theorem set_rbf_false_nseq (tx : PartialTransaction) :
    ∀ i ∈ (tx.set_rbf false).inputs, i.nsequence = 0xfffffffe := by
  intro i hi
  unfold PartialTransaction.set_rbf at hi
  dsimp only at hi
  obtain ⟨j, _, hj⟩ := List.mem_map.mp hi
  rw [← hj]
  rfl

theorem is_final_of_nseq (tx : PartialTransaction)
    (h : ∀ i ∈ tx.inputs, i.nsequence = 0xfffffffe) : tx.is_final = true := by
  have hany : tx.inputs.any (fun i => i.nsequence < 0xfffffffe) = false := by
    rw [List.any_eq_false]
    intro i hi
    simp [h i hi]
  unfold PartialTransaction.is_final
  rw [hany]
  rfl

theorem sign_transaction_nseq (w : Wallet) (t : PartialTransaction) :
    ∀ i ∈ (sign_transaction w t).inputs, ∃ j ∈ t.inputs, i.nsequence = j.nsequence := by
  intro i hi
  unfold sign_transaction at hi
  dsimp only at hi
  obtain ⟨j, hj, hji⟩ := List.mem_map.mp hi
  refine ⟨j, hj, ?_⟩
  rw [← hji]
  split <;> rfl

theorem signWithKeypairs_nseq (t : PartialTransaction) (kp : List String) :
    ∀ i ∈ (signWithKeypairs t kp).inputs, ∃ j ∈ t.inputs, i.nsequence = j.nsequence := by
  intro i hi
  unfold signWithKeypairs at hi
  dsimp only at hi
  obtain ⟨j, hj, hji⟩ := List.mem_map.mp hi
  refine ⟨j, hj, ?_⟩
  rw [← hji]
  split <;> rfl

/-- Claim C10: `mktx` ignores its `rbf` argument — two calls differing
only in it are identical — and every transaction returned by `mktx` or by
`sweep` has the replace-by-fee opt-in disabled: all input sequence
numbers are the final `0xfffffffe`, so the result `is_final`. -/
theorem spec_c10 (w : Wallet) (cc : CoinChooser) (outputs : List ReqOutput)
    (fee : FeeArg) (change_addr : List String) (domain : Option (List String))
    (rbf1 rbf2 : Bool) (nonlocal_only : Bool) (tx_version : Option Nat) (sign : Bool)
    (env : SweepEnv) (privkeys : List String) (to_address : String)
    (fee? : Option Int) (imax : Nat) (locktime? tv : Option Nat) :
    mktx w cc outputs fee change_addr domain rbf1 nonlocal_only tx_version sign =
      mktx w cc outputs fee change_addr domain rbf2 nonlocal_only tx_version sign ∧
    (∀ tx', mktx w cc outputs fee change_addr domain rbf1 nonlocal_only tx_version sign =
        .ok tx' →
      tx'.is_final = true ∧ ∀ i ∈ tx'.inputs, i.nsequence = 0xfffffffe) ∧
    (∀ tx', sweep env privkeys to_address fee? imax locktime? tv = .ok tx' →
      tx'.is_final = true ∧ ∀ i ∈ tx'.inputs, i.nsequence = 0xfffffffe) := by
  refine ⟨rfl, ?_, ?_⟩
  · intro tx' h
    unfold mktx at h
    dsimp only at h
    cases hmk : make_unsigned_transaction w cc (get_spendable_coins w domain nonlocal_only)
        outputs fee change_addr with
    | error e => rw [hmk] at h; cases h
    | ok t =>
      rw [hmk] at h
      dsimp only at h
      injection h with h
      subst h
      have hbase : ∀ i ∈ (t.set_rbf false).inputs, i.nsequence = 0xfffffffe :=
        set_rbf_false_nseq t
      have hver : (match tx_version with
          | some v => { t.set_rbf false with version := v }
          | none => t.set_rbf false).inputs = (t.set_rbf false).inputs := by
        cases tx_version <;> rfl
      have hall : ∀ i ∈ (if sign then
          sign_transaction w (match tx_version with
            | some v => { t.set_rbf false with version := v }
            | none => t.set_rbf false)
          else (match tx_version with
            | some v => { t.set_rbf false with version := v }
            | none => t.set_rbf false)).inputs, i.nsequence = 0xfffffffe := by
        intro i hi
        by_cases hs : sign = true
        · rw [if_pos hs] at hi
          obtain ⟨j, hj, hji⟩ := sign_transaction_nseq w _ i hi
          rw [hver] at hj
          rw [hji]
          exact hbase j hj
        · rw [if_neg hs] at hi
          rw [hver] at hi
          exact hbase i hi
      exact ⟨is_final_of_nseq _ hall, hall⟩
  · intro tx' h
    unfold sweep at h
    split at h
    · cases h
    · next inputs keypairs hprep =>
      dsimp only at h
      split at h
      · cases h
      · split at h
        · cases h
        · cases h
          have hall : ∀ i ∈ (signWithKeypairs
              ((⟨"", inputs, [⟨to_address, inputTotal inputs -
                  (match fee? with
                   | some f => f
                   | none => env.estimate_fee
                      (env.estimated_size inputs [⟨to_address, inputTotal inputs⟩]))⟩],
                locktime?.getD env.new_locktime, tv.getD 2⟩ :
                PartialTransaction).set_rbf false) keypairs).inputs,
              i.nsequence = 0xfffffffe := by
            intro i hi
            obtain ⟨j, hj, hji⟩ := signWithKeypairs_nseq _ keypairs i hi
            rw [hji]
            exact set_rbf_false_nseq _ j hj
          exact ⟨is_final_of_nseq _ hall, hall⟩

/-- Unsigned empty-input transaction returned by `mktx` on the neutral
wallet with a fixed zero fee. -/
def mktxRes : PartialTransaction := ⟨"", [], [⟨"d", 0⟩], 0, 2⟩

theorem spec_c10_witness :
    (mktxRes.is_final = true ∧ ∀ i ∈ mktxRes.inputs, i.nsequence = 0xfffffffe) ∧
    (sweepRes.is_final = true ∧ ∀ i ∈ sweepRes.inputs, i.nsequence = 0xfffffffe) :=
  ⟨(spec_c10 baseWallet nullChooser [⟨"d", .sats 0⟩] (.fixed 0) [] none true false false
      none false sweepEnv ["k1"] "dest" (some 5000) 100 none none).2.1 mktxRes (by rfl),
   (spec_c10 baseWallet nullChooser [⟨"d", .sats 0⟩] (.fixed 0) [] none true false false
      none false sweepEnv ["k1"] "dest" (some 5000) 100 none none).2.2 sweepRes (by rfl)⟩

end ElectrumMona
